import Mathlib

/-!
Shallow embedding of `fshandler.go` (static file serving with a TTL cache).
Byte strings are modelled as `List Char` (all bytes in play are ASCII, so Go's
byte-wise operations coincide with character-wise ones); `time.Time` values as
`Int` nanoseconds since the epoch, with `0` as Go's zero value; the filesystem
as a finite association list from path to entry.
-/

namespace FSH

/-- First index of byte `c` in a byte string, as `bytes.IndexByte` (none for -1). -/
def indexOfByte (c : Char) : List Char → Option Nat
  | [] => none
  | x :: xs => if x = c then some 0 else (indexOfByte c xs).map (· + 1)

/-- Last index of byte `c` in a byte string, as `strings.LastIndexByte` (none for -1). -/
def lastIndexOfByte (c : Char) : List Char → Option Nat
  | [] => none
  | x :: xs =>
    match lastIndexOfByte c xs with
    | some n => some (n + 1)
    | none => if x = c then some 0 else none

/-- Loop "strip leading slashes" of `stripPathSlashes`: on each round the path
must start with a slash (else the source panics, modelled as `none`); the next
slash after position 0 is located; if there is none the path becomes empty and
the loop stops, otherwise the path is advanced past the current segment. -/
def stripLoop : Nat → List Char → Option (List Char)
  | 0, p => some p
  | _ + 1, [] => some []
  | s + 1, c :: rest =>
    if c ≠ '/' then none
    else
      match indexOfByte '/' rest with
      | none => some []
      | some n => stripLoop s (rest.drop n)

/-- Loop "strip trailing slashes" of `stripPathSlashes`: removes every `'/'`
at the end of the path. -/
def stripTrailing : List Char → List Char
  | [] => []
  | c :: t =>
    match stripTrailing t with
    | [] => if c = '/' then [] else [c]
    | r => c :: r

/-- Embedding of `stripPathSlashes`: strip `stripSlashes` leading segments,
then all trailing slashes. `none` models the defensive panic on a path that
does not start with `'/'`. -/
def stripPathSlashes (path : List Char) (stripSlashes : Nat) : Option (List Char) :=
  (stripLoop stripSlashes path).map stripTrailing

/-- Embedding of `fileExtension`: the suffix starting at the last `'.'`
anywhere in the path, empty when the path has no `'.'`. -/
def fileExtension (path : List Char) : List Char :=
  match lastIndexOfByte '.' path with
  | none => []
  | some n => path.drop n

/-- Escape of one character as in Go's `html.EscapeString`. -/
def escapeChar (c : Char) : List Char :=
  if c = '&' then "&amp;".data
  else if c = '\'' then "&#39;".data
  else if c = '<' then "&lt;".data
  else if c = '>' then "&gt;".data
  else if c = '"' then "&#34;".data
  else [c]

/-- Embedding of `html.EscapeString`. -/
def htmlEscape (s : List Char) : List Char :=
  (s.map escapeChar).flatten

/-- Byte-wise lexicographic comparison on strings, the order used by
`sort.Sort(sort.StringSlice(...))`. -/
def strLe : List Char → List Char → Bool
  | [], _ => true
  | _ :: _, [] => false
  | x :: xs, y :: ys => if x < y then true else if y < x then false else strLe xs ys

end FSH

namespace FSH

/-- Filesystem entry: a regular file with its byte contents, or a directory
with the list of its immediate child names (in arbitrary order). -/
inductive FSEntry
  | file (contents : List Char)
  | dir (children : List (List Char))
deriving DecidableEq

/-- Filesystem: finite map from path to entry. -/
abbrev FS := List (List Char × FSEntry)

/-- Errors of resolution. `outOfFuel` is an artefact of the explicit recursion
bound on `openFSFile`; the source recursion always terminates on a finite
filesystem, and every theorem supplies sufficient fuel. -/
inductive FSErr
  | notExist
  | dirIndexRequired
  | tooBig (n : Int)
  | notDir
  | outOfFuel
deriving DecidableEq

/-- Embedding of `fsFile`. The backing handle `f` is modelled by the path the
handle was opened on; `t` is the `time.Time` field, with `0` for Go's zero
value (the struct literals in the source never set it). -/
structure fsFile where
  f : Option (List Char)
  dirIndex : Option (List Char)
  contentType : List Char
  contentLength : Int
  t : Int
deriving DecidableEq

/-- Truncation of an integer to a `w`-bit two's-complement value, modelling
Go's conversion `int(n)` from `int64` on a platform whose `int` has `w` bits. -/
def intCast (w : Nat) (n : Int) : Int :=
  (n + 2 ^ (w - 1)) % 2 ^ w - 2 ^ (w - 1)

/-- Embedding of `openFSFile` for a platform `int` width `w` and MIME table
`mime` (the external `mime.TypeByExtension`). The second component records the
paths whose handles were closed by the call (`f.Close()` in the source). Fuel
bounds the `index.html` recursion. -/
def openFSFile (w : Nat) (mime : List Char → List Char) (fs : FS) :
    Nat → List Char → Except FSErr fsFile × List (List Char)
  | 0, _ => (.error .outOfFuel, [])
  | fuel + 1, filePath =>
    match fs.lookup filePath with
    | none => (.error .notExist, [])
    | some (.dir _) =>
      let indexPath := filePath ++ "/index.html".data
      match openFSFile w mime fs fuel indexPath with
      | (.ok ff, closed) => (.ok ff, filePath :: closed)
      | (.error e, closed) =>
        if e = .notExist then (.error .dirIndexRequired, filePath :: closed)
        else (.error e, filePath :: closed)
    | some (.file contents) =>
      let n : Int := contents.length
      let contentLength := intCast w n
      if n ≠ contentLength then (.error (.tooBig n), [filePath])
      else
        (.ok { f := some filePath, dirIndex := none,
               contentType := mime (fileExtension filePath),
               contentLength := contentLength, t := 0 }, [])

/-- One rendered `<li>` entry of the directory listing, with escaped href and
escaped display name. `childPathOf name` models `(u.Update name).Path()`. -/
def itemEntry (childPathOf : List Char → List Char) (name : List Char) : List Char :=
  "<li><a href=\"".data ++ htmlEscape (childPathOf name) ++ "\">".data
    ++ htmlEscape name ++ "</a></li>".data

/-- Embedding of `createDirIndex`. `basePath` is `base.Path()` of the request
URI and `childPathOf` models href construction, `Modelled from the spec:` the
`URI` type (`Update`/`Path`) is repository code not present under `src/`; per
the spec each href is "built by resolving the child name against the original
request URI". Children are sorted with `sort.Sort(sort.StringSlice(...))`,
modelled as an insertion sort under byte-wise `strLe`. -/
def createDirIndex (basePath : List Char) (childPathOf : List Char → List Char)
    (fs : FS) (filePath : List Char) : Except FSErr fsFile :=
  let basePathEscaped := htmlEscape basePath
  let header := "<html><head><title>".data ++ basePathEscaped
    ++ "</title></head><body>".data ++ "<h1>".data ++ basePathEscaped
    ++ "</h1>".data ++ "<ul>".data
  let parent := if basePathEscaped.length > 1
    then "<li><a href=\"..\">..</a></li>".data else []
  match fs.lookup filePath with
  | none => .error .notExist
  | some (.file _) => .error .notDir
  | some (.dir filenames) =>
    let sorted := List.insertionSort (fun a b => strLe a b = true) filenames
    let items := (sorted.map (itemEntry childPathOf)).flatten
    let dirIndex := header ++ parent ++ items ++ "</ul></body></html>".data
    .ok { f := none, dirIndex := some dirIndex, contentType := "text/html".data,
          contentLength := dirIndex.length, t := 0 }

end FSH

namespace FSH

/-- Embedding of `fsFileReader`: the pooled cursor. `f` holds the path of the
shared backing handle (if any), `offset` the cursor's private read position. -/
structure fsFileReader where
  f : Option (List Char)
  dirIndex : Option (List Char)
  offset : Nat
deriving DecidableEq

/-- Embedding of `fsFile.Reader` (acquire from `fsFileReaderPool`): the pool is
modelled as a list, empty pool allocating a fresh cursor. A pooled cursor with
nonzero offset hits the source's `panic("BUG: fsFileReader with non-nil offset
found in the pool")`, modelled as `none`. -/
def fsFile.Reader (ff : fsFile) (pool : List fsFileReader) :
    Option (fsFileReader × List fsFileReader) :=
  match pool with
  | [] => some ({ f := ff.f, dirIndex := ff.dirIndex, offset := 0 }, [])
  | r :: rest =>
    if r.offset > 0 then none
    else some ({ r with f := ff.f, dirIndex := ff.dirIndex }, rest)

/-- Embedding of `fsFileReader.Close`: clear the binding and the offset. -/
def fsFileReader.close (r : fsFileReader) : fsFileReader :=
  { r with f := none, dirIndex := none, offset := 0 }

/-- The `fsFileReaderPool.Put(r.v)` step of `Close`: the cleared cursor goes
back to the pool. -/
def releaseToPool (r : fsFileReader) (pool : List fsFileReader) : List fsFileReader :=
  r.close :: pool

/-- Embedding of `fsFileReader.Read` with buffer capacity `cap` (= `len(p)`).
`lf` gives the byte contents behind an open handle (`os.File.ReadAt`, which
reads at an explicit offset and reports `io.EOF` exactly when it returns fewer
than `cap` bytes). Result: bytes read, updated cursor, and whether the call
reported end-of-data. -/
def fsFileReader.read (lf : List Char → Option (List Char))
    (r : fsFileReader) (cap : Nat) : List Char × fsFileReader × Bool :=
  match r.f with
  | some path =>
    let contents := (lf path).getD []
    let bytes := (contents.drop r.offset).take cap
    (bytes, { r with offset := r.offset + bytes.length }, bytes.length < cap)
  | none =>
    let d := r.dirIndex.getD []
    if r.offset = d.length then ([], r, true)
    else
      let bytes := (d.drop r.offset).take cap
      (bytes, { r with offset := r.offset + bytes.length }, false)

/-- Driver that calls `fsFileReader.read` until end-of-data is reported and
concatenates the outputs (the claim's "successive Reads until EOF"). -/
def readAll (lf : List Char → Option (List Char)) (cap : Nat)
    (r : fsFileReader) : Nat → List Char
  | 0 => []
  | fuel + 1 =>
    match r.read lf cap with
    | (bytes, r2, eof) => if eof then bytes else bytes ++ readAll lf cap r2 fuel

/-- Embedding of the constant `FSHandlerCacheDuration = 10 * time.Second`,
in nanoseconds (Go `Duration` units). -/
def FSHandlerCacheDuration : Int := 10000000000

/-- Embedding of `fsHandler.cleanCache` at wall-clock instant `now`: the first
component is the cache after removing every entry `v` with
`now - v.t > FSHandlerCacheDuration`, the second lists the backing handles the
sweep closed (one per removed entry that had one). -/
def cleanCache (now : Int) (cache : List (List Char × fsFile)) :
    List (List Char × fsFile) × List (List Char) :=
  (cache.filter (fun e => decide (¬ now - e.2.t > FSHandlerCacheDuration)),
   (cache.filter (fun e => decide (now - e.2.t > FSHandlerCacheDuration))).filterMap
     (fun e => e.2.f))

/-- Request context: the raw request path `ctx.Path()`, plus `base.Path()` and
the href builder of the request `URI` (see `createDirIndex`). -/
structure ReqCtx where
  rawPath : List Char
  uriPath : List Char
  childPathOf : List Char → List Char

/-- Outcome of `fsHandler.handleRequest` visible to the client: the defensive
panic of `stripPathSlashes`, the 400 for NUL bytes, the two 404 branches, or
the served descriptor (handed to `SetBodyStream`/`SetContentType`). -/
inductive Response
  | panicked
  | badRequest
  | dirIndexError
  | openError
  | served (ff : fsFile)
deriving DecidableEq

/-- State of `fsHandler`: root, strip count, and the cache map (association
list with unique keys). -/
structure HState where
  root : List Char
  stripSlashes : Nat
  cache : List (List Char × fsFile)

/-- Map assignment `h.cache[string(path)] = ff`. -/
def cacheInsert (k : List Char) (v : fsFile)
    (cache : List (List Char × fsFile)) : List (List Char × fsFile) :=
  (k, v) :: cache.filter (fun e => decide (¬ e.1 = k))

/-- Embedding of `fsHandler.handleRequest`: strip the path, reject NUL bytes,
look up the cache, on a miss resolve `root + path` (mapping
`errDirIndexRequired` to listing generation) and insert the descriptor. Returns
the response and the cache afterwards. -/
def handleRequest (w : Nat) (mime : List Char → List Char) (fuel : Nat)
    (fs : FS) (h : HState) (ctx : ReqCtx) :
    Response × List (List Char × fsFile) :=
  match stripPathSlashes ctx.rawPath h.stripSlashes with
  | none => (.panicked, h.cache)
  | some path =>
    if path.contains (Char.ofNat 0) then (.badRequest, h.cache)
    else
      match h.cache.lookup path with
      | some ff => (.served ff, h.cache)
      | none =>
        let filePath := h.root ++ path
        match openFSFile w mime fs fuel filePath with
        | (.ok ff, _) => (.served ff, cacheInsert path ff h.cache)
        | (.error .dirIndexRequired, _) =>
          match createDirIndex ctx.uriPath ctx.childPathOf fs filePath with
          | .ok ff => (.served ff, cacheInsert path ff h.cache)
          | .error _ => (.dirIndexError, h.cache)
        | (.error _, _) => (.openError, h.cache)

/-- A path assembled from slash-delimited segments: each segment is preceded
by one `'/'`. The spec's well-formed inputs are those whose segments are
nonempty and slash-free. -/
def joinPath (segs : List (List Char)) : List Char :=
  (segs.map (fun g => '/' :: g)).flatten

/-- Invariant of the data model: exactly one of the backing handle and the
generated content is populated. -/
def exclusive (ff : fsFile) : Prop :=
  (ff.f ≠ none ∧ ff.dirIndex = none) ∨ (ff.f = none ∧ ff.dirIndex ≠ none)

end FSH

section Sanity

open FSH

example : stripPathSlashes "/foo/bar".data 0 = some ("/foo/bar".data) := by decide
example : stripPathSlashes "/foo/bar".data 1 = some ("/bar".data) := by decide
example : stripPathSlashes "/foo/bar".data 2 = some ("".data) := by decide
example : stripPathSlashes "/foo/bar/".data 1 = some ("/bar".data) := by decide
example : fileExtension "/a.b/c".data = ".b/c".data := by decide
example : fileExtension "r/d/index.html".data = ".html".data := by decide
example : htmlEscape "<a&b>".data = "&lt;a&amp;b&gt;".data := by decide

example :
    let fs : FS := [("r/b".data, .file "xyz".data)]
    let h : HState := { root := "r".data, stripSlashes := 0, cache := [] }
    let ctx : ReqCtx := { rawPath := "/b".data, uriPath := "/b".data, childPathOf := id }
    handleRequest 64 (fun _ => []) 2 fs h ctx =
      (.served { f := some "r/b".data, dirIndex := none, contentType := [],
                 contentLength := 3, t := 0 },
       [("/b".data, { f := some "r/b".data, dirIndex := none, contentType := [],
                      contentLength := 3, t := 0 })]) := by decide

example :
    let fs : FS := [("r/d".data, .dir ["x".data]),
        ("r/d/index.html".data, .file "hi".data)]
    (openFSFile 64 (fun e => e) fs 3 "r/d".data).1 =
      .ok { f := some "r/d/index.html".data, dirIndex := none,
            contentType := ".html".data, contentLength := 2, t := 0 } := by rfl

end Sanity

namespace FSH

theorem lastIndexOfByte_eq_none {c : Char} :
    ∀ {l : List Char}, lastIndexOfByte c l = none → c ∉ l := by
  intro l
  induction l with
  | nil => intro _ h; cases h
  | cons x xs ih =>
    intro h
    simp only [lastIndexOfByte] at h
    rcases hx : lastIndexOfByte c xs with _ | n
    · rw [hx] at h
      by_cases hc : x = c
      · simp [hc] at h
      · intro hm
        rcases List.mem_cons.mp hm with h1 | h2
        · exact hc h1.symm
        · exact ih hx h2
    · rw [hx] at h; cases h

theorem lastIndexOfByte_eq_some {c : Char} :
    ∀ {l : List Char} {n : Nat}, lastIndexOfByte c l = some n →
      ∃ pre rest, l = pre ++ c :: rest ∧ pre.length = n ∧ c ∉ rest := by
  intro l
  induction l with
  | nil => intro n h; cases h
  | cons x xs ih =>
    intro n h
    simp only [lastIndexOfByte] at h
    rcases hx : lastIndexOfByte c xs with _ | m
    · rw [hx] at h
      by_cases hc : x = c
      · simp only [hc, if_pos rfl] at h
        cases h
        exact ⟨[], xs, by simp [hc], rfl, lastIndexOfByte_eq_none hx⟩
      · simp [hc] at h
    · rw [hx] at h
      cases h
      obtain ⟨pre, rest, hl, hlen, hnr⟩ := ih hx
      exact ⟨x :: pre, rest, by simp [hl], by simp [hlen], hnr⟩

theorem lastIndexOfByte_cons (c x : Char) (xs : List Char) :
    lastIndexOfByte c (x :: xs) =
      match lastIndexOfByte c xs with
      | some n => some (n + 1)
      | none => if x = c then some 0 else none := rfl

theorem lastIndexOfByte_append_some {c : Char} {b : List Char} {n : Nat}
    (h : lastIndexOfByte c b = some n) :
    ∀ (a : List Char), lastIndexOfByte c (a ++ b) = some (a.length + n) := by
  intro a
  induction a with
  | nil => simpa using h
  | cons x a' ih =>
    rw [List.cons_append, lastIndexOfByte_cons, ih]
    simp only [List.length_cons, Option.some.injEq]
    omega

theorem indexOfByte_eq_none {c : Char} :
    ∀ {l : List Char}, c ∉ l → indexOfByte c l = none := by
  intro l
  induction l with
  | nil => intro _; rfl
  | cons x xs ih =>
    intro h
    have hx : ¬ x = c := fun he => h (by simp [he])
    have hxs : c ∉ xs := fun hm => h (List.mem_cons_of_mem _ hm)
    simp [indexOfByte, hx, ih hxs]

theorem indexOfByte_append_not_mem {c : Char} :
    ∀ {g : List Char}, c ∉ g → ∀ (t : List Char),
      indexOfByte c (g ++ c :: t) = some g.length := by
  intro g
  induction g with
  | nil => intro _ t; simp [indexOfByte]
  | cons x g' ih =>
    intro h t
    have hx : ¬ x = c := fun he => h (by simp [he])
    have hg : c ∉ g' := fun hm => h (List.mem_cons_of_mem _ hm)
    simp [indexOfByte, hx, ih hg t]

theorem indexOfByte_some_head {c : Char} :
    ∀ {l : List Char} {n : Nat}, indexOfByte c l = some n →
      (l.drop n).head? = some c := by
  intro l
  induction l with
  | nil => intro n h; cases h
  | cons x xs ih =>
    intro n h
    by_cases hx : x = c
    · rw [show indexOfByte c (x :: xs) =
          (if x = c then some 0 else (indexOfByte c xs).map (· + 1)) from rfl,
        if_pos hx] at h
      injection h with h
      subst h
      simp [hx]
    · rw [show indexOfByte c (x :: xs) =
          (if x = c then some 0 else (indexOfByte c xs).map (· + 1)) from rfl,
        if_neg hx, Option.map_eq_some'] at h
      obtain ⟨m, hm, hn⟩ := h
      subst hn
      simpa using ih hm

theorem stripTrailing_cons (c : Char) (t : List Char) :
    stripTrailing (c :: t) =
      match stripTrailing t with
      | [] => if c = '/' then [] else [c]
      | r => c :: r := rfl

theorem stripTrailing_getLast?_ne :
    ∀ (l : List Char), (stripTrailing l).getLast? ≠ some '/' := by
  intro l
  induction l with
  | nil => simp [stripTrailing]
  | cons c t ih =>
    rw [stripTrailing_cons]
    rcases hr : stripTrailing t with _ | ⟨y, ys⟩
    · by_cases hc : c = '/'
      · simp [hc]
      · simp only [if_neg hc]
        intro he
        rw [List.getLast?_singleton] at he
        exact hc (by injection he)
    · rw [hr] at ih
      rw [List.getLast?_cons_cons]
      exact ih

theorem stripTrailing_eq_self :
    ∀ {l : List Char}, l.getLast? ≠ some '/' → stripTrailing l = l := by
  intro l
  induction l with
  | nil => intro _; rfl
  | cons c t ih =>
    intro h
    rcases t with _ | ⟨y, t'⟩
    · simp only [List.getLast?_singleton] at h
      have hc : ¬ c = '/' := fun he => h (by rw [he])
      simp [stripTrailing, hc]
    · rw [List.getLast?_cons_cons] at h
      have ht := ih h
      rw [stripTrailing_cons, ht]

theorem strLe_cons {x y : Char} {xs ys : List Char} :
    strLe (x :: xs) (y :: ys) = true ↔ x < y ∨ (x = y ∧ strLe xs ys = true) := by
  show (if x < y then true else if y < x then false else strLe xs ys) = true ↔ _
  by_cases h1 : x < y
  · simp [h1]
  · by_cases h2 : y < x
    · have hne : ¬ x = y := fun he => absurd h2 (by rw [he]; exact lt_irrefl y)
      simp [h1, h2, hne]
    · have he : x = y := le_antisymm (not_lt.mp h2) (not_lt.mp h1)
      simp [h1, h2, he]

theorem strLe_total : ∀ (a b : List Char), strLe a b = true ∨ strLe b a = true := by
  intro a
  induction a with
  | nil => intro b; exact Or.inl rfl
  | cons x xs ih =>
    intro b
    rcases b with _ | ⟨y, ys⟩
    · exact Or.inr rfl
    · rcases lt_trichotomy x y with h | h | h
      · exact Or.inl (strLe_cons.mpr (Or.inl h))
      · rcases ih ys with h' | h'
        · exact Or.inl (strLe_cons.mpr (Or.inr ⟨h, h'⟩))
        · exact Or.inr (strLe_cons.mpr (Or.inr ⟨h.symm, h'⟩))
      · exact Or.inr (strLe_cons.mpr (Or.inl h))

theorem strLe_trans :
    ∀ (a b c : List Char), strLe a b = true → strLe b c = true → strLe a c = true := by
  intro a
  induction a with
  | nil => intro b c _ _; rfl
  | cons x xs ih =>
    intro b c hab hbc
    rcases b with _ | ⟨y, ys⟩
    · cases hab
    · rcases c with _ | ⟨z, zs⟩
      · cases hbc
      · rcases strLe_cons.mp hab with h1 | ⟨h1, h1'⟩ <;>
          rcases strLe_cons.mp hbc with h2 | ⟨h2, h2'⟩
        · exact strLe_cons.mpr (Or.inl (lt_trans h1 h2))
        · exact strLe_cons.mpr (Or.inl (h2 ▸ h1))
        · exact strLe_cons.mpr (Or.inl (h1 ▸ h2))
        · exact strLe_cons.mpr (Or.inr ⟨h1.trans h2, ih ys zs h1' h2'⟩)

instance : IsTotal (List Char) (fun a b => strLe a b = true) := ⟨strLe_total⟩

instance : IsTrans (List Char) (fun a b => strLe a b = true) := ⟨strLe_trans⟩

theorem escapeChar_ne_nil (c : Char) : escapeChar c ≠ [] := by
  unfold escapeChar
  split_ifs <;> simp

theorem htmlEscape_cons (c : Char) (t : List Char) :
    htmlEscape (c :: t) = escapeChar c ++ htmlEscape t := by
  simp [htmlEscape]

theorem htmlEscape_eq_nil_iff (l : List Char) : htmlEscape l = [] ↔ l = [] := by
  induction l with
  | nil => simp [htmlEscape]
  | cons c t ih =>
    rw [htmlEscape_cons]
    simp only [List.append_eq_nil]
    constructor
    · rintro ⟨h, _⟩; exact absurd h (escapeChar_ne_nil c)
    · intro h; cases h

theorem joinPath_cons (g : List Char) (rest : List (List Char)) :
    joinPath (g :: rest) = '/' :: (g ++ joinPath rest) := by
  simp [joinPath]

theorem joinPath_getLast?_ne :
    ∀ (segs : List (List Char)), (∀ g ∈ segs, g ≠ [] ∧ '/' ∉ g) →
      (joinPath segs).getLast? ≠ some '/' := by
  intro segs
  induction segs with
  | nil => intro _; simp [joinPath]
  | cons g rest ih =>
    intro hwf
    obtain ⟨hg, hgs⟩ := hwf g (List.mem_cons_self g rest)
    rw [joinPath_cons]
    rcases rest with _ | ⟨r, rs⟩
    · simp only [joinPath, List.map_nil, List.flatten_nil, List.append_nil]
      rcases g with _ | ⟨b, bs⟩
      · exact absurd rfl hg
      · rw [List.getLast?_cons_cons]
        intro he
        obtain ⟨hne', h2⟩ := List.mem_getLast?_eq_getLast (Option.mem_def.mpr he)
        exact hgs (by rw [h2]; exact List.getLast_mem hne')
    · have hne : joinPath (r :: rs) ≠ [] := by
        rw [joinPath_cons]; simp
      have h1 : (('/' :: (g ++ joinPath (r :: rs)))).getLast? =
          (g ++ joinPath (r :: rs)).getLast? := by
        have : ('/' :: (g ++ joinPath (r :: rs))) = ['/'] ++ (g ++ joinPath (r :: rs)) := rfl
        rw [this, List.getLast?_append_of_ne_nil]
        intro hc
        exact hne (by rcases List.append_eq_nil.mp hc with ⟨_, h⟩; exact h)
      rw [h1, List.getLast?_append_of_ne_nil _ hne]
      exact ih (fun g' hg' => hwf g' (List.mem_cons_of_mem _ hg'))

theorem stripLoop_succ_cons (s : Nat) (c : Char) (rest : List Char) :
    stripLoop (s + 1) (c :: rest) =
      if c ≠ '/' then none
      else
        match indexOfByte '/' rest with
        | none => some []
        | some n => stripLoop s (rest.drop n) := rfl

theorem stripLoop_head :
    ∀ (s : Nat) (p r : List Char), stripLoop s p = some r →
      p.head? = some '/' → r = [] ∨ r.head? = some '/' := by
  intro s
  induction s with
  | zero =>
    intro p r h hp
    simp only [stripLoop, Option.some.injEq] at h
    subst h
    exact Or.inr hp
  | succ s ih =>
    intro p r h hp
    rcases p with _ | ⟨c, rest⟩
    · simp only [stripLoop, Option.some.injEq] at h
      subst h
      exact Or.inl rfl
    · have hc : c = '/' := by
        simpa using hp
      rw [stripLoop_succ_cons, if_neg (by simp [hc])] at h
      rcases hi : indexOfByte '/' rest with _ | n
      · rw [hi] at h
        simp only [Option.some.injEq] at h
        subst h
        exact Or.inl rfl
      · rw [hi] at h
        exact ih (rest.drop n) r h (indexOfByte_some_head hi)

theorem stripLoop_joinPath :
    ∀ (s : Nat) (segs : List (List Char)), (∀ g ∈ segs, g ≠ [] ∧ '/' ∉ g) →
      stripLoop s (joinPath segs) = some (joinPath (segs.drop s)) := by
  intro s
  induction s with
  | zero => intro segs _; simp [stripLoop]
  | succ s ih =>
    intro segs hwf
    rcases segs with _ | ⟨g, rest⟩
    · simp [joinPath, stripLoop]
    · obtain ⟨hg, hgs⟩ := hwf g (List.mem_cons_self g rest)
      rw [joinPath_cons, stripLoop_succ_cons, if_neg (by simp)]
      rcases rest with _ | ⟨r, rs⟩
      · simp only [joinPath, List.map_nil, List.flatten_nil, List.append_nil]
        rw [indexOfByte_eq_none hgs]
        simp [List.drop_succ_cons, List.drop_nil]
      · have hidx : indexOfByte '/' (g ++ joinPath (r :: rs)) = some g.length := by
          rw [joinPath_cons]
          exact indexOfByte_append_not_mem hgs _
        simp only [hidx]
        have hdrop : (g ++ joinPath (r :: rs)).drop g.length = joinPath (r :: rs) :=
          List.drop_left _ _
        rw [hdrop, List.drop_succ_cons]
        exact ih (r :: rs) (fun g' hg' => hwf g' (List.mem_cons_of_mem _ hg'))

theorem intCast_eq_self_iff {w : Nat} (hw : 1 ≤ w) {n : Int} (hn : 0 ≤ n) :
    intCast w n = n ↔ n < 2 ^ (w - 1) := by
  have hpow : (2 : Int) ^ w = 2 ^ (w - 1) * 2 := by
    rw [← pow_succ]
    congr 1
    omega
  have hh : (0 : Int) < 2 ^ (w - 1) := pow_pos (by norm_num) _
  unfold intCast
  rw [hpow]
  constructor
  · intro h
    by_contra hlt
    push_neg at hlt
    have hmod : (n + 2 ^ (w - 1)) % (2 ^ (w - 1) * 2) = n + 2 ^ (w - 1) := by
      linarith [h]
    have h1 : (n + 2 ^ (w - 1)) % (2 ^ (w - 1) * 2) < 2 ^ (w - 1) * 2 :=
      Int.emod_lt_of_pos _ (by linarith)
    rw [hmod] at h1
    linarith
  · intro h
    rw [Int.emod_eq_of_lt (by linarith) (by linarith)]
    ring

theorem openFSFile_succ (w : Nat) (mime : List Char → List Char) (fs : FS)
    (fuel : Nat) (filePath : List Char) :
    openFSFile w mime fs (fuel + 1) filePath =
      match fs.lookup filePath with
      | none => (.error .notExist, [])
      | some (.dir _) =>
        let indexPath := filePath ++ "/index.html".data
        match openFSFile w mime fs fuel indexPath with
        | (.ok ff, closed) => (.ok ff, filePath :: closed)
        | (.error e, closed) =>
          if e = .notExist then (.error .dirIndexRequired, filePath :: closed)
          else (.error e, filePath :: closed)
      | some (.file contents) =>
        let n : Int := contents.length
        let contentLength := intCast w n
        if n ≠ contentLength then (.error (.tooBig n), [filePath])
        else
          (.ok { f := some filePath, dirIndex := none,
                 contentType := mime (fileExtension filePath),
                 contentLength := contentLength, t := 0 }, []) := rfl

theorem openFSFile_ok_shape :
    ∀ (fuel w : Nat) (mime : List Char → List Char) (fs : FS)
      (path : List Char) (ff : fsFile),
      (openFSFile w mime fs fuel path).1 = .ok ff →
      (∃ p, ff.f = some p) ∧ ff.dirIndex = none := by
  intro fuel
  induction fuel with
  | zero => intro w mime fs path ff h; cases h
  | succ fuel ih =>
    intro w mime fs path ff h
    rw [openFSFile_succ] at h
    rcases hl : fs.lookup path with _ | entry <;> rw [hl] at h
    · cases h
    · rcases entry with contents | children
      · dsimp only at h
        by_cases hn : (contents.length : Int) ≠ intCast w (contents.length : Int)
        · rw [if_pos hn] at h
          cases h
        · rw [if_neg hn] at h
          injection h with h
          subst h
          exact ⟨⟨path, rfl⟩, rfl⟩
      · dsimp only at h
        rcases ho : openFSFile w mime fs fuel (path ++ "/index.html".data) with ⟨res, closed⟩
        rw [ho] at h
        rcases res with e | ff'
        · dsimp only at h
          by_cases he : e = FSErr.notExist
          · rw [if_pos he] at h
            cases h
          · rw [if_neg he] at h
            cases h
        · dsimp only at h
          injection h with h
          subst h
          have h2 := ih w mime fs (path ++ "/index.html".data) ff'
          rw [ho] at h2
          exact h2 rfl

theorem stripTrailing_head? :
    ∀ (l : List Char), stripTrailing l = [] ∨ (stripTrailing l).head? = l.head? := by
  intro l
  rcases l with _ | ⟨c, t⟩
  · exact Or.inl rfl
  · rw [stripTrailing_cons]
    rcases stripTrailing t with _ | ⟨y, ys⟩
    · by_cases hc : c = '/'
      · simp [hc]
      · simp [hc]
    · simp

end FSH

namespace FSH

/-- C10: `fileExtension` returns the suffix of the full filesystem path
starting at the last `'.'` character anywhere in the path, the empty string
when there is none; in particular the derived extension may span `'/'`
characters, as on `"/a.b/c"` where it is `".b/c"`. -/
theorem c10_fileExtension_last_dot :
    (∀ path : List Char,
        ('.' ∉ path → fileExtension path = []) ∧
        ('.' ∈ path → ∃ pre rest, path = pre ++ '.' :: rest ∧ '.' ∉ rest ∧
          fileExtension path = '.' :: rest)) ∧
    fileExtension "/a.b/c".data = ".b/c".data := by
  constructor
  · intro path
    constructor
    · intro hnm
      unfold fileExtension
      rcases hli : lastIndexOfByte '.' path with _ | n
      · rfl
      · obtain ⟨pre, rest, hp, _, _⟩ := lastIndexOfByte_eq_some hli
        exact absurd (show '.' ∈ path by rw [hp]; simp) hnm
    · intro hm
      rcases hli : lastIndexOfByte '.' path with _ | n
      · exact absurd hm (lastIndexOfByte_eq_none hli)
      · obtain ⟨pre, rest, hp, hlen, hnr⟩ := lastIndexOfByte_eq_some hli
        refine ⟨pre, rest, hp, hnr, ?_⟩
        unfold fileExtension
        rw [hli]
        dsimp only
        rw [hp, ← hlen, List.drop_left]
  · decide

/-- C10 witness: the general statement applied to the concrete path
`"/a.b/c"`, whose last dot lies in a directory component. -/
theorem c10_fileExtension_last_dot_witness :
    ∃ pre rest, "/a.b/c".data = pre ++ '.' :: rest ∧ '.' ∉ rest ∧
      fileExtension "/a.b/c".data = '.' :: rest :=
  (c10_fileExtension_last_dot.1 "/a.b/c".data).2 (by decide)

/-- C2 counterexample: stripping one segment from `"/foo/bar"` yields
`"/bar"` — the remainder keeps its leading slash (as the source's own doc
comment states) — not `"bar"` as the claim says. -/
theorem c2_strip_counterexample :
    stripPathSlashes "/foo/bar".data 1 = some ("/bar".data) ∧
    ¬ stripPathSlashes "/foo/bar".data 1 = some ("bar".data) := by
  decide

/-- C2 (amended): for every strip count `s` and every path assembled from
nonempty slash-free segments, normalization removes the first `s` segments but
the remainder keeps its own leading `'/'` (so `s=1` on `"/foo/bar"` gives
`"/bar"`); stripping at least as many segments as exist yields the empty path;
for any input the result never ends with `'/'`, and when the input starts with
`'/'` the result is empty or starts with `'/'`. -/
theorem c2_strip_amended :
    (∀ (segs : List (List Char)) (s : Nat), (∀ g ∈ segs, g ≠ [] ∧ '/' ∉ g) →
        stripPathSlashes (joinPath segs) s = some (joinPath (segs.drop s))) ∧
    (∀ (p : List Char) (s : Nat) (r : List Char), stripPathSlashes p s = some r →
        r.getLast? ≠ some '/') ∧
    (∀ (p : List Char) (s : Nat) (r : List Char), stripPathSlashes p s = some r →
        p.head? = some '/' → r = [] ∨ r.head? = some '/') := by
  refine ⟨?_, ?_, ?_⟩
  · intro segs s hwf
    unfold stripPathSlashes
    rw [stripLoop_joinPath s segs hwf]
    simp only [Option.map_some', Option.some.injEq]
    exact stripTrailing_eq_self
      (joinPath_getLast?_ne _ (fun g hg => hwf g (List.mem_of_mem_drop hg)))
  · intro p s r h
    unfold stripPathSlashes at h
    rw [Option.map_eq_some'] at h
    obtain ⟨r0, _, hr⟩ := h
    rw [← hr]
    exact stripTrailing_getLast?_ne r0
  · intro p s r h hp
    unfold stripPathSlashes at h
    rw [Option.map_eq_some'] at h
    obtain ⟨r0, h0, hr⟩ := h
    rcases stripLoop_head s p r0 h0 hp with h1 | h1
    · subst h1
      left
      rw [← hr]
      rfl
    · rcases stripTrailing_head? r0 with h2 | h2
      · left
        rw [← hr, h2]
      · right
        rw [← hr, h2, h1]

/-- C2 witness: the amended statement applied to the segments of
`"/foo/bar"` with strip count 1. -/
theorem c2_strip_amended_witness :
    stripPathSlashes (joinPath ["foo".data, "bar".data]) 1 =
      some (joinPath (["foo".data, "bar".data].drop 1)) :=
  c2_strip_amended.1 ["foo".data, "bar".data] 1 (by decide)

/-- C4 counterexample: closing a reader whose offset is 5 triggers no fatal
check — it returns normally, silently clearing the binding and resetting the
offset to zero before the object is pooled. -/
theorem c4_close_counterexample :
    fsFileReader.close { f := none, dirIndex := some "abc".data, offset := 5 } =
      { f := none, dirIndex := none, offset := 0 } ∧
    releaseToPool { f := none, dirIndex := some "abc".data, offset := 5 } [] =
      [{ f := none, dirIndex := none, offset := 0 }] := by
  decide

/-- C4 (amended): release (`Close`) silently resets the cursor — binding
cleared, offset zeroed — before pooling it, so acquiring from a pool headed by
a released cursor always succeeds; the fatal precondition check fires at
acquisition time instead, when `fsFile.Reader` finds a pooled cursor with a
nonzero offset. -/
theorem c4_release_amended :
    (∀ (r : fsFileReader) (pool : List fsFileReader) (ff : fsFile),
        fsFileReader.close r = { f := none, dirIndex := none, offset := 0 } ∧
        fsFile.Reader ff (releaseToPool r pool) =
          some ({ f := ff.f, dirIndex := ff.dirIndex, offset := 0 }, pool)) ∧
    (∀ (r : fsFileReader) (pool : List fsFileReader) (ff : fsFile),
        r.offset > 0 → fsFile.Reader ff (r :: pool) = none) := by
  constructor
  · intro r pool ff
    exact ⟨rfl, rfl⟩
  · intro r pool ff h
    rw [show fsFile.Reader ff (r :: pool) =
          (if r.offset > 0 then none
           else some ({ r with f := ff.f, dirIndex := ff.dirIndex }, pool)) from rfl,
      if_pos h]

/-- C4 witness: acquiring on a pool whose head cursor has offset 5 hits the
fatal check. -/
theorem c4_release_amended_witness :
    fsFile.Reader
      { f := none, dirIndex := some "x".data, contentType := [],
        contentLength := 1, t := 0 }
      [{ f := none, dirIndex := none, offset := 5 }] = none :=
  c4_release_amended.2 { f := none, dirIndex := none, offset := 5 } []
    { f := none, dirIndex := some "x".data, contentType := [],
      contentLength := 1, t := 0 } (by decide)

end FSH

namespace FSH

theorem take_append_drop_length {α : Type} (n : Nat) (l : List α) :
    l.take n ++ l.drop (l.take n).length = l := by
  rcases le_or_lt n l.length with h | h
  · rw [List.length_take, Nat.min_eq_left h, List.take_append_drop]
  · rw [List.take_of_length_le h.le, List.drop_length, List.append_nil]

theorem readAll_succ (lf : List Char → Option (List Char)) (cap : Nat)
    (r : fsFileReader) (fuel : Nat) :
    readAll lf cap r (fuel + 1) =
      match r.read lf cap with
      | (bytes, r2, eof) => if eof then bytes else bytes ++ readAll lf cap r2 fuel := rfl

theorem read_gen_eq (lf : List Char → Option (List Char)) (d : List Char)
    (off cap : Nat) :
    fsFileReader.read lf { f := none, dirIndex := some d, offset := off } cap =
      (if off = d.length
       then ([], { f := none, dirIndex := some d, offset := off }, true)
       else ((d.drop off).take cap,
             { f := none, dirIndex := some d,
               offset := off + ((d.drop off).take cap).length }, false)) := rfl

theorem readAll_gen (lf : List Char → Option (List Char)) (cap : Nat)
    (d : List Char) :
    ∀ (fuel off : Nat), off ≤ d.length → 1 ≤ cap → d.length - off < fuel →
      readAll lf cap { f := none, dirIndex := some d, offset := off } fuel =
        d.drop off := by
  intro fuel
  induction fuel with
  | zero => intro off _ _ h; omega
  | succ fuel ih =>
    intro off hle hcap hfuel
    rw [readAll_succ, read_gen_eq]
    by_cases he : off = d.length
    · rw [if_pos he]
      dsimp only
      rw [if_pos rfl, he, List.drop_length]
    · have hlt : off < d.length := lt_of_le_of_ne hle he
      rw [if_neg he]
      dsimp only
      rw [if_neg Bool.false_ne_true]
      have hblen : ((d.drop off).take cap).length = min cap (d.length - off) := by
        rw [List.length_take, List.length_drop]
      have hih := ih (off + ((d.drop off).take cap).length)
        (by rw [hblen]; omega) hcap (by rw [hblen]; omega)
      rw [hih]
      have hdd : d.drop (off + ((d.drop off).take cap).length) =
          (d.drop off).drop ((d.drop off).take cap).length := by
        rw [List.drop_drop, Nat.add_comm]
      rw [hdd, take_append_drop_length]

/-- C8: resolving a regular file fails (closing the handle, returning no
descriptor) exactly when the stat size does not fit the platform's `w`-bit
`int`; otherwise the descriptor keeps the open handle, its contentLength is
the exact byte size, and its content type is the MIME lookup of the file
extension — for every MIME table, so an empty or unknown extension cannot
cause an error. -/
theorem c8_file_size :
    ∀ (w : Nat) (mime : List Char → List Char) (fs : FS) (fuel : Nat)
      (path contents : List Char),
      fs.lookup path = some (.file contents) → 1 ≤ w →
      ((∃ ff, (openFSFile w mime fs (fuel + 1) path).1 = .ok ff) ↔
        (contents.length : Int) < 2 ^ (w - 1)) ∧
      ((contents.length : Int) < 2 ^ (w - 1) →
        openFSFile w mime fs (fuel + 1) path =
          (.ok { f := some path, dirIndex := none,
                 contentType := mime (fileExtension path),
                 contentLength := (contents.length : Int), t := 0 }, [])) ∧
      (¬ (contents.length : Int) < 2 ^ (w - 1) →
        openFSFile w mime fs (fuel + 1) path =
          (.error (.tooBig (contents.length : Int)), [path])) := by
  intro w mime fs fuel path contents hl hw
  have hn : (0 : Int) ≤ (contents.length : Int) := Int.natCast_nonneg _
  have hiff := intCast_eq_self_iff hw hn
  rw [openFSFile_succ, hl]
  dsimp only
  by_cases hc : (contents.length : Int) < 2 ^ (w - 1)
  · have he : intCast w (contents.length : Int) = (contents.length : Int) :=
      hiff.mpr hc
    rw [if_neg (not_ne_iff.mpr he.symm)]
    refine ⟨⟨fun _ => hc, fun _ => ⟨_, rfl⟩⟩, ?_, fun h => absurd hc h⟩
    intro _
    rw [he]
  · have he : (contents.length : Int) ≠ intCast w (contents.length : Int) :=
      fun h => hc (hiff.mp h.symm)
    rw [if_pos he]
    refine ⟨⟨?_, fun h => absurd h hc⟩, fun h => absurd h hc, fun _ => rfl⟩
    rintro ⟨ff, hff⟩
    cases hff

/-- C8 witness: a three-byte file on a 64-bit platform resolves to a
descriptor with the open handle, contentLength 3 and the extension-derived
content type. -/
theorem c8_file_size_witness :
    openFSFile 64 (fun e => e) [("r/b".data, FSEntry.file "xyz".data)] 1
        "r/b".data =
      (.ok { f := some "r/b".data, dirIndex := none,
             contentType := fileExtension "r/b".data,
             contentLength := 3, t := 0 }, []) :=
  (c8_file_size 64 (fun e => e) [("r/b".data, FSEntry.file "xyz".data)] 0
    "r/b".data "xyz".data (by decide) (by decide)).2.1 (by decide)

/-- C7: a cursor on generated content copies from the buffer at its offset,
advances by the bytes copied, and reports end-of-data exactly when the offset
equals the buffer length; reads driven to EOF concatenate to exactly the
generated byte sequence; a cursor bound to a handle performs a positional read
at its own offset and advances by the bytes read. -/
theorem c7_read_semantics :
    (∀ (lf : List Char → Option (List Char)) (d : List Char) (off cap : Nat),
        (off = d.length →
          fsFileReader.read lf { f := none, dirIndex := some d, offset := off } cap =
            ([], { f := none, dirIndex := some d, offset := off }, true)) ∧
        (off < d.length → 1 ≤ cap →
          ∃ bytes, bytes ≠ [] ∧ bytes = (d.drop off).take cap ∧
            fsFileReader.read lf { f := none, dirIndex := some d, offset := off } cap =
              (bytes, { f := none, dirIndex := some d,
                        offset := off + bytes.length }, false))) ∧
    (∀ (lf : List Char → Option (List Char)) (d : List Char) (cap fuel : Nat),
        1 ≤ cap → d.length + 1 ≤ fuel →
        readAll lf cap { f := none, dirIndex := some d, offset := 0 } fuel = d) ∧
    (∀ (lf : List Char → Option (List Char)) (path contents : List Char)
        (dix : Option (List Char)) (off cap : Nat), lf path = some contents →
        fsFileReader.read lf { f := some path, dirIndex := dix, offset := off } cap =
          ((contents.drop off).take cap,
           { f := some path, dirIndex := dix,
             offset := off + ((contents.drop off).take cap).length },
           decide (((contents.drop off).take cap).length < cap))) := by
  refine ⟨?_, ?_, ?_⟩
  · intro lf d off cap
    constructor
    · intro he
      rw [read_gen_eq, if_pos he]
    · intro hlt hcap
      refine ⟨(d.drop off).take cap, ?_, rfl, ?_⟩
      · have h1 : ((d.drop off).take cap).length = min cap (d.length - off) := by
          rw [List.length_take, List.length_drop]
        intro hnil
        rw [hnil] at h1
        simp only [List.length_nil] at h1
        omega
      · rw [read_gen_eq, if_neg (Nat.ne_of_lt hlt)]
  · intro lf d cap fuel hcap hfuel
    have h := readAll_gen lf cap d fuel 0 (Nat.zero_le _) hcap (by omega)
    rw [h, List.drop_zero]
  · intro lf path contents dix off cap hlp
    show ((((lf path).getD []).drop off).take cap, _, _) = _
    rw [hlp]
    rfl

/-- C7 witness: draining a five-byte generated buffer with a two-byte read
buffer returns exactly the buffer contents. -/
theorem c7_read_semantics_witness :
    readAll (fun _ => none) 2
      { f := none, dirIndex := some "hello".data, offset := 0 } 6 =
      "hello".data :=
  c7_read_semantics.2.1 (fun _ => none) "hello".data 2 6 (by decide) (by decide)

end FSH

namespace FSH

theorem createDirIndex_ok_shape
    {basePath : List Char} {childPathOf : List Char → List Char} {fs : FS}
    {filePath : List Char} {ff : fsFile}
    (h : createDirIndex basePath childPathOf fs filePath = .ok ff) :
    ff.f = none ∧ ∃ d, ff.dirIndex = some d := by
  unfold createDirIndex at h
  rcases hl : fs.lookup filePath with _ | entry <;> rw [hl] at h
  · cases h
  · rcases entry with c | names
    · cases h
    · dsimp only at h
      injection h with h
      subst h
      exact ⟨rfl, _, rfl⟩

theorem mem_cacheInsert {kv : List Char × fsFile} {k : List Char} {v : fsFile}
    {cache : List (List Char × fsFile)} :
    kv ∈ cacheInsert k v cache → kv = (k, v) ∨ kv ∈ cache := by
  intro h
  rcases List.mem_cons.mp h with h | h
  · exact Or.inl h
  · exact Or.inr (List.mem_filter.mp h).1

/-- C9: every descriptor produced by resolution has exactly one of the backing
handle and the generated content populated — file resolution a handle and no
generated content, listing generation generated content and no handle — and
the request handler preserves the invariant across every cache it produces
(nothing repopulates the other side afterwards). -/
theorem c9_exclusive :
    (∀ (fuel w : Nat) (mime : List Char → List Char) (fs : FS)
        (path : List Char) (ff : fsFile),
        (openFSFile w mime fs fuel path).1 = .ok ff →
        ff.f ≠ none ∧ ff.dirIndex = none) ∧
    (∀ (basePath : List Char) (childPathOf : List Char → List Char) (fs : FS)
        (filePath : List Char) (ff : fsFile),
        createDirIndex basePath childPathOf fs filePath = .ok ff →
        ff.f = none ∧ ff.dirIndex ≠ none) ∧
    (∀ (w : Nat) (mime : List Char → List Char) (fuel : Nat) (fs : FS)
        (hs : HState) (ctx : ReqCtx),
        (∀ kv ∈ hs.cache, exclusive kv.2) →
        ∀ kv ∈ (handleRequest w mime fuel fs hs ctx).2, exclusive kv.2) := by
  refine ⟨?_, ?_, ?_⟩
  · intro fuel w mime fs path ff h
    obtain ⟨⟨p, hp⟩, hd⟩ := openFSFile_ok_shape fuel w mime fs path ff h
    exact ⟨by simp [hp], hd⟩
  · intro basePath childPathOf fs filePath ff h
    obtain ⟨hf, d, hd⟩ := createDirIndex_ok_shape h
    exact ⟨hf, by simp [hd]⟩
  · intro w mime fuel fs hs ctx hpre kv hkv
    simp only [handleRequest] at hkv
    rcases hsp : stripPathSlashes ctx.rawPath hs.stripSlashes with _ | path <;>
      rw [hsp] at hkv
    · exact hpre kv hkv
    · dsimp only at hkv
      by_cases hnul : path.contains (Char.ofNat 0)
      · rw [if_pos hnul] at hkv
        exact hpre kv hkv
      · rw [if_neg hnul] at hkv
        rcases hcl : hs.cache.lookup path with _ | ff0 <;> rw [hcl] at hkv
        · dsimp only at hkv
          rcases ho : openFSFile w mime fs fuel (hs.root ++ path) with ⟨res, closed⟩
          rw [ho] at hkv
          rcases res with e | ff1
          · rcases e with _ | _ | n | _ | _ <;> dsimp only at hkv
            · exact hpre kv hkv
            · rcases hci : createDirIndex ctx.uriPath ctx.childPathOf fs
                  (hs.root ++ path) with e2 | ff2 <;> rw [hci] at hkv
              · exact hpre kv hkv
              · dsimp only at hkv
                rcases mem_cacheInsert hkv with hkv | hkv
                · obtain ⟨hf, hd⟩ := createDirIndex_ok_shape hci
                  rw [hkv]
                  right
                  exact ⟨hf, by rcases hd with ⟨d, hd⟩; simp [hd]⟩
                · exact hpre kv hkv
            · exact hpre kv hkv
            · exact hpre kv hkv
            · exact hpre kv hkv
          · dsimp only at hkv
            rcases mem_cacheInsert hkv with hkv | hkv
            · have hok : (openFSFile w mime fs fuel (hs.root ++ path)).1 = .ok ff1 := by
                rw [ho]
              obtain ⟨⟨p, hp⟩, hd⟩ := openFSFile_ok_shape fuel w mime fs
                (hs.root ++ path) ff1 hok
              rw [hkv]
              left
              exact ⟨by simp [hp], hd⟩
            · exact hpre kv hkv
        · exact hpre kv hkv

/-- C9 witness: the invariant holds for the cache produced by a concrete
request that resolves a file into an empty cache. -/
theorem c9_exclusive_witness :
    ∀ kv ∈ (handleRequest 64 (fun _ => []) 2
        [("r/b".data, FSEntry.file "xyz".data)]
        { root := "r".data, stripSlashes := 0, cache := [] }
        { rawPath := "/b".data, uriPath := "/b".data, childPathOf := id }).2,
      exclusive kv.2 :=
  c9_exclusive.2.2 64 (fun _ => []) 2 [("r/b".data, FSEntry.file "xyz".data)]
    { root := "r".data, stripSlashes := 0, cache := [] }
    { rawPath := "/b".data, uriPath := "/b".data, childPathOf := id }
    (fun kv hkv => absurd hkv (List.not_mem_nil kv))

end FSH

namespace FSH

/-- C5: for every enumerable directory, the generated listing is the HTML
skeleton whose title and heading are the HTML-escaped requested path, whose
parent `".."` link is present exactly when the requested path is non-root, and
whose list items are one per child — escaped href and escaped display name —
in lexicographically sorted order of child names, independent of enumeration
order. -/
theorem c5_dir_listing :
    ∀ (basePath : List Char) (childPathOf : List Char → List Char) (fs : FS)
      (filePath : List Char) (names : List (List Char)),
      fs.lookup filePath = some (.dir names) →
      basePath.head? = some '/' →
      ∃ (sorted : List (List Char)) (body : List Char),
        sorted.Perm names ∧
        List.Sorted (fun a b => strLe a b = true) sorted ∧
        body = "<html><head><title>".data ++ htmlEscape basePath
          ++ "</title></head><body>".data ++ "<h1>".data ++ htmlEscape basePath
          ++ "</h1>".data ++ "<ul>".data
          ++ (if basePath = ['/'] then []
              else "<li><a href=\"..\">..</a></li>".data)
          ++ (sorted.map (itemEntry childPathOf)).flatten
          ++ "</ul></body></html>".data ∧
        createDirIndex basePath childPathOf fs filePath =
          .ok { f := none, dirIndex := some body,
                contentType := "text/html".data,
                contentLength := (body.length : Int), t := 0 } := by
  intro basePath childPathOf fs filePath names hl hhead
  obtain ⟨rest, hbp⟩ : ∃ rest, basePath = '/' :: rest := by
    rcases basePath with _ | ⟨c, rest⟩
    · cases hhead
    · refine ⟨rest, ?_⟩
      simp only [List.head?_cons, Option.some.injEq] at hhead
      rw [hhead]
  have hesc : htmlEscape basePath = '/' :: htmlEscape rest := by
    rw [hbp, htmlEscape_cons]
    rfl
  have hif : (if (htmlEscape basePath).length > 1
        then "<li><a href=\"..\">..</a></li>".data else []) =
      (if basePath = ['/'] then []
        else "<li><a href=\"..\">..</a></li>".data) := by
    by_cases hb : basePath = ['/']
    · have h1 : htmlEscape basePath = ['/'] := by rw [hb]; decide
      rw [h1, if_pos hb]
      norm_num
    · have hrest : rest ≠ [] := by
        intro h
        exact hb (by rw [hbp, h])
      have hlen : (htmlEscape basePath).length > 1 := by
        rw [hesc, List.length_cons]
        have : htmlEscape rest ≠ [] := fun h => hrest ((htmlEscape_eq_nil_iff rest).mp h)
        have := List.length_pos.mpr this
        omega
      rw [if_pos hlen, if_neg hb]
  refine ⟨List.insertionSort (fun a b => strLe a b = true) names,
    "<html><head><title>".data ++ htmlEscape basePath
      ++ "</title></head><body>".data ++ "<h1>".data ++ htmlEscape basePath
      ++ "</h1>".data ++ "<ul>".data
      ++ (if (htmlEscape basePath).length > 1
          then "<li><a href=\"..\">..</a></li>".data else [])
      ++ ((List.insertionSort (fun a b => strLe a b = true) names).map
            (itemEntry childPathOf)).flatten
      ++ "</ul></body></html>".data,
    List.perm_insertionSort _ _,
    List.sorted_insertionSort _ _,
    by rw [hif],
    ?_⟩
  unfold createDirIndex
  rw [hl]

end FSH

namespace FSH

/-- C5 witness: the spec's example directory `["b.txt","a.txt","index.htm"]`
requested at path `"/d"`. -/
theorem c5_dir_listing_witness :
    ∃ (sorted : List (List Char)) (body : List Char),
      sorted.Perm ["b.txt".data, "a.txt".data, "index.htm".data] ∧
      List.Sorted (fun a b => strLe a b = true) sorted ∧
      body = "<html><head><title>".data ++ htmlEscape "/d".data
        ++ "</title></head><body>".data ++ "<h1>".data ++ htmlEscape "/d".data
        ++ "</h1>".data ++ "<ul>".data
        ++ (if "/d".data = ['/'] then []
            else "<li><a href=\"..\">..</a></li>".data)
        ++ (sorted.map (itemEntry id)).flatten
        ++ "</ul></body></html>".data ∧
      createDirIndex "/d".data id
          [("r/d".data, FSEntry.dir ["b.txt".data, "a.txt".data, "index.htm".data])]
          "r/d".data =
        .ok { f := none, dirIndex := some body,
              contentType := "text/html".data,
              contentLength := (body.length : Int), t := 0 } :=
  c5_dir_listing "/d".data id
    [("r/d".data, FSEntry.dir ["b.txt".data, "a.txt".data, "index.htm".data])]
    "r/d".data ["b.txt".data, "a.txt".data, "index.htm".data]
    (by decide) (by decide)

theorem fileExtension_index (a : List Char) :
    fileExtension (a ++ "/index.html".data) = ".html".data := by
  unfold fileExtension
  have h : lastIndexOfByte '.' (a ++ "/index.html".data) = some (a.length + 6) :=
    lastIndexOfByte_append_some (by decide) a
  rw [h]
  dsimp only
  rw [List.drop_append]
  decide

/-- C6: when resolution opens a directory it closes the directory handle and
resolves `path/index.html` instead — success returns that file's descriptor
(content type derived from `".html"`), a missing index yields
`errDirIndexRequired`, which the request handler maps to directory-listing
generation, and any other failure of the index resolution (here: an oversized
index file) propagates as that error. -/
theorem c6_dir_index :
    ∀ (w : Nat) (mime : List Char → List Char) (fs : FS) (fuel : Nat)
      (dirPath : List Char) (children : List (List Char)),
      fs.lookup dirPath = some (.dir children) →
      (∀ contents,
        fs.lookup (dirPath ++ "/index.html".data) = some (.file contents) →
        (contents.length : Int) = intCast w (contents.length : Int) →
        openFSFile w mime fs (fuel + 2) dirPath =
          (.ok { f := some (dirPath ++ "/index.html".data), dirIndex := none,
                 contentType := mime (".html".data),
                 contentLength := (contents.length : Int), t := 0 },
           [dirPath])) ∧
      (fs.lookup (dirPath ++ "/index.html".data) = none →
        openFSFile w mime fs (fuel + 2) dirPath =
          (.error .dirIndexRequired, [dirPath])) ∧
      (∀ contents,
        fs.lookup (dirPath ++ "/index.html".data) = some (.file contents) →
        (contents.length : Int) ≠ intCast w (contents.length : Int) →
        openFSFile w mime fs (fuel + 2) dirPath =
          (.error (.tooBig (contents.length : Int)),
           [dirPath, dirPath ++ "/index.html".data])) ∧
      (∀ (hs : HState) (ctx : ReqCtx) (path : List Char),
        stripPathSlashes ctx.rawPath hs.stripSlashes = some path →
        path.contains (Char.ofNat 0) = false →
        hs.cache.lookup path = none →
        hs.root ++ path = dirPath →
        fs.lookup (dirPath ++ "/index.html".data) = none →
        ∀ ff, createDirIndex ctx.uriPath ctx.childPathOf fs dirPath = .ok ff →
        handleRequest w mime (fuel + 2) fs hs ctx =
          (.served ff, cacheInsert path ff hs.cache)) := by
  intro w mime fs fuel dirPath children hl
  have hmiss : fs.lookup (dirPath ++ "/index.html".data) = none →
      openFSFile w mime fs (fuel + 2) dirPath =
        (.error .dirIndexRequired, [dirPath]) := by
    intro hli
    rw [openFSFile_succ, hl]
    dsimp only
    rw [openFSFile_succ, hli]
    dsimp only
    rw [if_pos rfl]
  refine ⟨?_, hmiss, ?_, ?_⟩
  · intro contents hli heq
    rw [openFSFile_succ, hl]
    dsimp only
    rw [openFSFile_succ, hli]
    dsimp only
    rw [if_neg (not_ne_iff.mpr heq)]
    dsimp only
    rw [fileExtension_index, ← heq]
  · intro contents hli hne
    rw [openFSFile_succ, hl]
    dsimp only
    rw [openFSFile_succ, hli]
    dsimp only
    rw [if_pos hne]
    dsimp only
    rw [if_neg (by intro h; cases h)]
  · intro hs ctx path hsp hnul hcl hroot hli ff hci
    simp only [handleRequest]
    rw [hsp]
    dsimp only
    rw [if_neg (by rw [hnul]; exact Bool.false_ne_true), hcl]
    dsimp only
    rw [hroot, hmiss hli]
    dsimp only
    rw [hci]

/-- C6 witness: a directory `r/d` whose `index.html` is a two-byte file
resolves to that file's descriptor on a 64-bit platform. -/
theorem c6_dir_index_witness :
    openFSFile 64 (fun e => e)
        [("r/d".data, FSEntry.dir ["index.html".data]),
         ("r/d/index.html".data, FSEntry.file "hi".data)] 3 "r/d".data =
      (.ok { f := some ("r/d".data ++ "/index.html".data), dirIndex := none,
             contentType := ".html".data,
             contentLength := ("hi".data.length : Int), t := 0 },
       ["r/d".data]) :=
  ((c6_dir_index 64 (fun e => e)
      [("r/d".data, FSEntry.dir ["index.html".data]),
       ("r/d/index.html".data, FSEntry.file "hi".data)] 1 "r/d".data
      ["index.html".data] (by decide)).1 "hi".data (by decide) (by decide))

end FSH

namespace FSH

/-- C3 counterexample: with strip count 1 and raw path `"/a\x00/b"`, the NUL
byte lies in the stripped-off leading segment; the handler does not report the
bad-request failure — it resolves and serves the remainder `"/b"`. -/
theorem c3_nul_counterexample :
    ("/a".data ++ [Char.ofNat 0] ++ "/b".data).contains (Char.ofNat 0) = true ∧
    (handleRequest 64 (fun _ => []) 2 [("r/b".data, FSEntry.file "xyz".data)]
        { root := "r".data, stripSlashes := 1, cache := [] }
        { rawPath := "/a".data ++ [Char.ofNat 0] ++ "/b".data,
          uriPath := [], childPathOf := id }).1 ≠ Response.badRequest ∧
    (handleRequest 64 (fun _ => []) 2 [("r/b".data, FSEntry.file "xyz".data)]
        { root := "r".data, stripSlashes := 1, cache := [] }
        { rawPath := "/a".data ++ [Char.ofNat 0] ++ "/b".data,
          uriPath := [], childPathOf := id }).1 =
      Response.served { f := some "r/b".data, dirIndex := none,
                        contentType := [], contentLength := 3, t := 0 } := by
  decide

/-- C3 (amended): the NUL check runs after segment stripping, so the handler
reports the bad-request failure exactly when the STRIPPED path contains a NUL
byte; in that case it logs and returns before touching the cache or the
filesystem (the cache is returned unchanged); a NUL byte confined to the
stripped-off leading segments is not rejected. -/
theorem c3_nul_amended :
    ∀ (w : Nat) (mime : List Char → List Char) (fuel : Nat) (fs : FS)
      (hs : HState) (ctx : ReqCtx) (path : List Char),
      stripPathSlashes ctx.rawPath hs.stripSlashes = some path →
      ((handleRequest w mime fuel fs hs ctx).1 = .badRequest ↔
        path.contains (Char.ofNat 0) = true) ∧
      (path.contains (Char.ofNat 0) = true →
        handleRequest w mime fuel fs hs ctx = (.badRequest, hs.cache)) := by
  intro w mime fuel fs hs ctx path hsp
  simp only [handleRequest]
  rw [hsp]
  dsimp only
  by_cases hb : path.contains (Char.ofNat 0) = true
  · rw [if_pos hb]
    exact ⟨⟨fun _ => hb, fun _ => rfl⟩, fun _ => rfl⟩
  · rw [if_neg hb]
    refine ⟨⟨?_, fun h => absurd h hb⟩, fun h => absurd h hb⟩
    intro h
    exfalso
    rcases hcl : hs.cache.lookup path with _ | ff0 <;> rw [hcl] at h
    · dsimp only at h
      rcases ho : openFSFile w mime fs fuel (hs.root ++ path) with ⟨res, closed⟩
      rw [ho] at h
      rcases res with e | ff1
      · rcases e with _ | _ | n | _ | _ <;> dsimp only at h
        · cases h
        · rcases hci : createDirIndex ctx.uriPath ctx.childPathOf fs
              (hs.root ++ path) with e2 | ff2 <;> rw [hci] at h <;> dsimp only at h
          · cases h
          · cases h
        · cases h
        · cases h
        · cases h
      · dsimp only at h
        cases h
    · dsimp only at h
      cases h

/-- C3 witness: the amended statement applied to strip count 0 and raw path
`"/b\x00"`, whose stripped form still contains the NUL byte, yields the
bad-request outcome with the cache untouched. -/
theorem c3_nul_amended_witness :
    handleRequest 64 (fun _ => []) 2 [("r/b".data, FSEntry.file "xyz".data)]
        { root := "r".data, stripSlashes := 0, cache := [] }
        { rawPath := "/b".data ++ [Char.ofNat 0] ++ "/x".data,
          uriPath := [], childPathOf := id } =
      (.badRequest, []) :=
  (c3_nul_amended 64 (fun _ => []) 2 [("r/b".data, FSEntry.file "xyz".data)]
    { root := "r".data, stripSlashes := 0, cache := [] }
    { rawPath := "/b".data ++ [Char.ofNat 0] ++ "/x".data,
      uriPath := [], childPathOf := id }
    ("/b".data ++ [Char.ofNat 0] ++ "/x".data) (by decide)).2 (by decide)

/-- C1 (the code at the claim's failing input): the handler inserts the
resolved descriptor with its `t` field still at the zero value — no call ever
assigns the insertion time — so a sweep at any instant `now` past one TTL from
the ZERO time removes the entry and closes its handle, even when the entry was
inserted at `tIns` less than one TTL before the sweep, where the claim says it
must survive. -/
theorem c1_lastTouched_bug :
    ∀ (tIns now : Int), 0 ≤ tIns → tIns ≤ now →
      now - tIns < FSHandlerCacheDuration → FSHandlerCacheDuration < now →
      (handleRequest 64 (fun _ => []) 2 [("r/b".data, FSEntry.file "xyz".data)]
          { root := "r".data, stripSlashes := 0, cache := [] }
          { rawPath := "/b".data, uriPath := [], childPathOf := id }).2 =
        [("/b".data, { f := some "r/b".data, dirIndex := none, contentType := [],
                       contentLength := 3, t := 0 })] ∧
      cleanCache now
          [("/b".data, { f := some "r/b".data, dirIndex := none, contentType := [],
                         contentLength := 3, t := 0 })] =
        ([], ["r/b".data]) := by
  intro tIns now h0 h1 h2 h3
  constructor
  · decide
  · have hgt : now - (0 : Int) > FSHandlerCacheDuration := by
      rw [gt_iff_lt, sub_zero]
      exact h3
    unfold cleanCache
    simp only [List.filter_cons, List.filter_nil, List.filterMap_cons,
      List.filterMap_nil]
    have hdf : (decide (¬ now - (0 : Int) > FSHandlerCacheDuration)) = false :=
      decide_eq_false (not_not_intro hgt)
    have hdt : (decide (now - (0 : Int) > FSHandlerCacheDuration)) = true :=
      decide_eq_true hgt
    rw [hdf, hdt, if_neg Bool.false_ne_true, if_pos rfl]
    rfl

end FSH

namespace FSH

/-- C1 witness: insertion at 1s, sweep at 10.5s — an age of 9.5s, below the
10s TTL — and the entry is removed anyway, its handle closed. -/
theorem c1_lastTouched_bug_witness :
    cleanCache 10500000000
        [("/b".data, { f := some "r/b".data, dirIndex := none, contentType := [],
                       contentLength := 3, t := 0 })] =
      ([], ["r/b".data]) :=
  (c1_lastTouched_bug 1000000000 10500000000 (by decide) (by decide)
    (by decide) (by decide)).2

end FSH
